import Mathlib

/-!
# Cotrix coupon-discovery engine: a shallow embedding

This file embeds the pure logic of the Cotrix coupon API (the cheerio/axios
service in `api/src/server.ts`, together with the puppeteer snapshots of the
same service) as executable Lean definitions, and proves properties of that
logic.

Conventions of the embedding:
* JavaScript strings are `String`/`List Char`; only the ASCII fragment of
  `toUpperCase`/`toLowerCase`/`trim` is modelled, which covers every string
  the service manipulates (hostnames, coupon codes, fixed tokens).
* The WHATWG `new URL(...)` platform constructor is modelled by a simplified
  parser `parseURL` restricted to `scheme://host[...]` URLs: it returns the
  (lower-cased) hostname, and `none` on inputs with no `://` authority form.
* JavaScript `Map` objects are association lists with first-match lookup,
  in-place replacement on `set`, and removal on `delete`.
* `Array.prototype.sort` (stable in V8) is modelled by a stable insertion
  sort `sortStable le` where `le a b` means "comparator(a,b) ≤ 0".
* Network results are oracle parameters: each external fetch is a
  `Except Unit _` value supplied to the function, `.error` standing for any
  axios/navigation failure. The extraction and filtering logic applied to a
  successful response is translated from the source.
* `Date.now()` is an explicit `now : Nat` parameter.
-/

/-! ## ASCII character helpers -/

/-- `[A-Z]`. -/
def isUpperA (c : Char) : Bool := 'A' ≤ c && c ≤ 'Z'

/-- `[a-z]`. -/
def isLowerA (c : Char) : Bool := 'a' ≤ c && c ≤ 'z'

/-- ASCII upper-casing of one character, the fragment of JavaScript
`String.prototype.toUpperCase` exercised by the service. -/
def upChar (c : Char) : Char :=
  if isLowerA c then Char.ofNat (c.toNat - 32) else c

/-- ASCII lower-casing of one character, the fragment of JavaScript
`String.prototype.toLowerCase` exercised by the service. -/
def lowChar (c : Char) : Char :=
  if isUpperA c then Char.ofNat (c.toNat + 32) else c

/-- ASCII whitespace, the fragment of `\s` / `String.prototype.trim`
whitespace relevant to the service. -/
def isSpaceC (c : Char) : Bool :=
  c = ' ' || c = '\t' || c = '\n' || c = '\r'

/-- `[0-9]` (JavaScript `\d`). -/
def isDigitC (c : Char) : Bool := '0' ≤ c && c ≤ '9'

/-- An ASCII letter (scheme characters of the URL model). -/
def isAsciiLetter (c : Char) : Bool := isUpperA c || isLowerA c

/-! ## List-of-characters string operations -/

/-- Upper-case a character list. -/
def upperC (s : List Char) : List Char := s.map upChar

/-- Lower-case a character list. -/
def lowerC (s : List Char) : List Char := s.map lowChar

/-- `String.prototype.trim` on a character list (ASCII whitespace). -/
def trimC (s : List Char) : List Char :=
  ((s.dropWhile isSpaceC).reverse.dropWhile isSpaceC).reverse

/-- Does `s` start with `pre`? -/
def startsWithC : List Char → List Char → Bool
  | [], _ => true
  | _ :: _, [] => false
  | p :: ps, c :: cs => p = c && startsWithC ps cs

/-- Does `s` contain `sub` as a contiguous substring
(JavaScript `String.prototype.includes`)? -/
def hasSubC (sub : List Char) : List Char → Bool
  | [] => startsWithC sub []
  | c :: cs => startsWithC sub (c :: cs) || hasSubC sub cs

/-- Remove the first occurrence of `sub` (JavaScript
`String.prototype.replace(sub, '')` with a string pattern); the string is
unchanged when `sub` does not occur. -/
def removeFirstSub (sub : List Char) : List Char → List Char
  | [] => []
  | c :: cs =>
    if startsWithC sub (c :: cs) then (c :: cs).drop sub.length
    else c :: removeFirstSub sub cs

/-- JavaScript `replace(/\..+$/, '')`: delete everything from the leftmost
dot that is followed by at least one character. -/
def stripDotRest : List Char → List Char
  | [] => []
  | c :: cs => if c = '.' && cs ≠ [] then [] else c :: stripDotRest cs

/-! ## String wrappers -/

/-- `toUpperCase` on `String`. -/
def toUpperS (s : String) : String := String.mk (upperC s.toList)

/-- `toLowerCase` on `String`. -/
def toLowerS (s : String) : String := String.mk (lowerC s.toList)

/-! ## The code-shape predicate (`isPotentialCouponCode`, server.ts 569–598) -/

/-- `/^[A-Z0-9]{4,15}$/`. -/
def patAlnum (cs : List Char) : Bool :=
  decide (4 ≤ cs.length) && decide (cs.length ≤ 15)
    && cs.all (fun c => isUpperA c || isDigitC c)

/-- `/^SAVE\d+$/`. -/
def patSave (cs : List Char) : Bool :=
  startsWithC ['S', 'A', 'V', 'E'] cs && !(cs.drop 4).isEmpty
    && (cs.drop 4).all isDigitC

/-- `/^NEW\d+$/`. -/
def patNew (cs : List Char) : Bool :=
  startsWithC ['N', 'E', 'W'] cs && !(cs.drop 3).isEmpty
    && (cs.drop 3).all isDigitC

/-- `/^\d+OFF$/`. -/
def patOff (cs : List Char) : Bool :=
  let d := cs.takeWhile isDigitC
  !d.isEmpty && decide (cs.drop d.length = ['O', 'F', 'F'])

/-- `/^[A-Z]+\d+[A-Z]*$/`. -/
def patLDL (cs : List Char) : Bool :=
  let a := cs.takeWhile isUpperA
  let r := cs.drop a.length
  let d := r.takeWhile isDigitC
  !a.isEmpty && !d.isEmpty && (r.drop d.length).all isUpperA

/-- `/^[A-Z]{2,}\d{2,}$/`. -/
def patLLDD (cs : List Char) : Bool :=
  let a := cs.takeWhile isUpperA
  let r := cs.drop a.length
  decide (2 ≤ a.length) && decide (2 ≤ r.length) && r.all isDigitC

/-- The blacklist of markup/keyword tokens (server.ts 590–593). -/
def blacklistTokens : List (List Char) :=
  [['D','O','C','T','Y','P','E'], ['H','T','T','P'], ['H','T','T','P','S'],
   ['H','T','M','L'], ['H','E','A','D'], ['B','O','D','Y'],
   ['S','C','R','I','P','T'], ['S','T','Y','L','E'], ['M','E','T','A'],
   ['L','I','N','K'], ['D','I','V'], ['S','P','A','N']]

/-- The cleaned form `code.trim().toUpperCase()` used by the predicate. -/
def cleanCodeOf (s : List Char) : List Char := upperC (trimC s)

/-- `isPotentialCouponCode` (server.ts 569–598) on a character list. -/
def isPotentialCouponCodeC (code : List Char) : Bool :=
  let cs := cleanCodeOf code
  if cs.length < 4 || 15 < cs.length then false
  else if !(patAlnum cs || patSave cs || patNew cs || patOff cs
      || patLDL cs || patLLDD cs) then false
  else if blacklistTokens.any (fun t => hasSubC t cs) then false
  else true

/-- `isPotentialCouponCode` on `String`. -/
def isPotentialCouponCode (code : String) : Bool :=
  isPotentialCouponCodeC code.toList

/-! ## URL model -/

/-- The components of a parsed absolute URL that the service reads. -/
structure URLParts where
  scheme : String
  hostname : String
deriving Repr, DecidableEq

/-- Simplified model of the WHATWG `new URL(...)` platform constructor,
restricted to `scheme://host[/?#:]...` inputs: the scheme is one or more
ASCII letters, `://` must follow, and the hostname is the non-empty run up
to the first `/`, `?`, `#` or `:` (a port or path is ignored). The hostname
is lower-cased, as the platform does. Inputs outside this shape do not
parse (`none`), modelling the constructor throwing. -/
def parseURLC (cs : List Char) : Option (List Char × List Char) :=
  let scheme := cs.takeWhile isAsciiLetter
  let rest := cs.drop scheme.length
  if scheme.isEmpty then none
  else if startsWithC [':', '/', '/'] rest then
    let host := (rest.drop 3).takeWhile
      (fun c => !(c = '/' || c = '?' || c = '#' || c = ':'))
    if host.isEmpty then none else some (scheme, lowerC host)
  else none

/-- `new URL(s)` on `String`, yielding scheme and (lower-cased) hostname. -/
def parseURL (s : String) : Option URLParts :=
  (parseURLC s.toList).map fun p => ⟨String.mk p.1, String.mk p.2⟩

/-- `isValidUrl` (server.ts 600–607): true exactly when `new URL` succeeds. -/
def isValidUrl (s : String) : Bool := (parseURL s).isSome

/-- `extractStoreName` (server.ts 609–620): hostname with the first
occurrence of `www.` removed, then the first occurrence of `.com` removed,
then everything from the first remaining dot (followed by ≥ 1 character)
removed, lower-cased; `''` when the URL does not parse. -/
def extractStoreName (url : String) : String :=
  match parseURL url with
  | none => ""
  | some u =>
    String.mk (lowerC (stripDotRest
      (removeFirstSub ['.', 'c', 'o', 'm']
        (removeFirstSub ['w', 'w', 'w', '.'] u.hostname.toList))))

/-- The hyphen-free slug variant (server.ts 405): a global regex replace
dropping every hyphen of the store name. -/
def removeHyphens (s : String) : String :=
  String.mk (s.toList.filter (fun c => c ≠ '-'))

/-- `new URL(originalUrl).hostname.replace('www.', '')`
(server.ts 430); total here because the handler pre-validates the URL. -/
def domainOf (url : String) : String :=
  match parseURL url with
  | none => ""
  | some u => String.mk (removeFirstSub ['w', 'w', 'w', '.'] u.hostname.toList)

/-- `replace(/(clothing|shop|store|online)/g, '')`: repeatedly delete the
leftmost occurrence of any of the four substrings (the puppeteer variants'
slug filter, server.ts 148–152 and the unnamed snapshot line 121). -/
def removeStoreWords : List Char → List Char
  | [] => []
  | 'c' :: 'l' :: 'o' :: 't' :: 'h' :: 'i' :: 'n' :: 'g' :: rest =>
    removeStoreWords rest
  | 's' :: 'h' :: 'o' :: 'p' :: rest => removeStoreWords rest
  | 's' :: 't' :: 'o' :: 'r' :: 'e' :: rest => removeStoreWords rest
  | 'o' :: 'n' :: 'l' :: 'i' :: 'n' :: 'e' :: rest => removeStoreWords rest
  | c :: rest => c :: removeStoreWords rest

/-- The puppeteer variants' inline slug
(`hostname.replace('www.','').split('.')[0].toLowerCase()
.replace(/(clothing|shop|store|online)/g,'')`,
server.ts 148–152 / unnamed snapshot line 121); `none` when the URL does
not parse (there `new URL` throws). -/
def pupSlug (url : String) : Option String :=
  (parseURL url).map fun u =>
    String.mk (removeStoreWords (lowerC
      ((removeFirstSub ['w','w','w','.'] u.hostname.toList).takeWhile
        (fun c => c ≠ '.'))))

/-- Modelled from the spec (claim C8 wording): the hostname lower-cased,
with a leading `www.` stripped, truncated to the first label before the
first dot, and with every occurrence of `clothing`, `shop`, `store`,
`online` removed. Spec-side definition, for comparison with
`extractStoreName`. -/
def specStoreSlug (url : String) : Option String :=
  (parseURL url).map fun u =>
    String.mk (removeStoreWords
      ((removeFirstSub ['w','w','w','.'] u.hostname.toList).takeWhile
        (fun c => c ≠ '.')))

/-! ## Coupon data model (cheerio variant) -/

/-- `CouponCode` (server.ts 346–352); `description` and `verified` are
optional in the interface but set at every creation site, so they are
plain fields here (`verified`'s JavaScript `undefined` never occurs). -/
structure CouponCode where
  code : String
  description : String
  verified : Bool
  source : String
deriving Repr, DecidableEq

/-- `CacheEntry` (server.ts 341–344). -/
structure CacheEntry where
  data : List String
  timestamp : Nat
deriving Repr, DecidableEq

/-- `CACHE_DURATION = 1000 * 60 * 60` (server.ts 355). -/
def CACHE_DURATION : Nat := 1000 * 60 * 60

/-! ## JavaScript `Map` as an association list -/

/-- `Map.prototype.get`: first binding of the key. -/
def mGet {α : Type} (k : String) : List (String × α) → Option α
  | [] => none
  | (k', v) :: rest => if k' = k then some v else mGet k rest

/-- `Map.prototype.set`: replace the binding in place, else append. -/
def mSet {α : Type} (k : String) (v : α) : List (String × α) → List (String × α)
  | [] => [(k, v)]
  | (k', v') :: rest =>
    if k' = k then (k, v) :: rest else (k', v') :: mSet k v rest

/-- `Map.prototype.delete`: remove the bindings of the key (a JavaScript
`Map` holds at most one). -/
def mDel {α : Type} (k : String) : List (String × α) → List (String × α)
  | [] => []
  | (k', v') :: rest =>
    if k' = k then mDel k rest else (k', v') :: mDel k rest

/-- The module-level result cache (server.ts 354). -/
abbrev Cache := List (String × CacheEntry)

/-- `getCachedResult` (server.ts 622–632): a hit returns the stored data;
an entry older than `CACHE_DURATION` is deleted on this read and treated
as absent. Returns the data (if any) and the possibly-updated cache. -/
def getCachedResult (now : Nat) (cache : Cache) (url : String) :
    Option (List String) × Cache :=
  match mGet url cache with
  | none => (none, cache)
  | some e =>
    if CACHE_DURATION < now - e.timestamp then (none, mDel url cache)
    else (some e.data, cache)

/-- `cacheResult` (server.ts 634–639): store with `timestamp = Date.now()`. -/
def cacheResult (url : String) (data : List String) (now : Nat)
    (cache : Cache) : Cache :=
  mSet url ⟨data, now⟩ cache

/-! ## Stable sort (V8 `Array.prototype.sort` with a consistent comparator) -/

/-- Insert `x` after every element `y` with `le y x` (ties keep the earlier
element first, as a stable sort does). -/
def insertS {α : Type} (le : α → α → Bool) (x : α) : List α → List α
  | [] => [x]
  | y :: ys => if le y x then y :: insertS le x ys else x :: y :: ys

/-- Stable sort by the total preorder `le` (`le a b` = "comparator(a,b) ≤ 0"). -/
def sortStable {α : Type} (le : α → α → Bool) (l : List α) : List α :=
  l.foldl (fun acc x => insertS le x acc) []

/-! ## Aggregation and ranking (`selectBestCodes`, server.ts 530–559) -/

/-- The explicit source ranking (server.ts 548–553); unknown sources get 0
via the JavaScript `|| 0`. -/
def sourceRank (s : String) : Int :=
  if s = "retailmenot" then 3
  else if s = "couponcabin" then 2
  else if s = "promocodes" then 1
  else 0

/-- The sort comparator of `selectBestCodes` (server.ts 543–557):
verified first, then by the source ranking. -/
def selectCompare (a b : CouponCode) : Int :=
  if a.verified && !b.verified then -1
  else if !a.verified && b.verified then 1
  else sourceRank b.source - sourceRank a.source

/-- "`a` may come before `b`": comparator at most 0. -/
def rankLe (a b : CouponCode) : Bool := selectCompare a b ≤ 0

/-- One step of the dedup loop (server.ts 534–539): keep the stored
candidate unless the incoming one is verified and the stored one is not. -/
def dedupStep (m : List (String × CouponCode)) (c : CouponCode) :
    List (String × CouponCode) :=
  if (mGet c.code m).elim true
      (fun existing => c.verified && !existing.verified)
    then mSet c.code c m else m

/-- The dedup `Map` built by `selectBestCodes` (server.ts 532–539). -/
def dedupCodes (codes : List CouponCode) : List (String × CouponCode) :=
  codes.foldl dedupStep []

/-- The deduplicated candidates, in `Map` insertion order. -/
def dedupValues (codes : List CouponCode) : List CouponCode :=
  (dedupCodes codes).map Prod.snd

/-- `selectBestCodes` (server.ts 530–559): dedup, sort by the comparator,
keep the first three. -/
def selectBestCodes (codes : List CouponCode) : List CouponCode :=
  (sortStable rankLe (dedupValues codes)).take 3

/-- `generateCommonCodes` (server.ts 561–567). -/
def generateCommonCodes (storeName : String) : List String :=
  [toUpperS storeName ++ "10", "WELCOME10", "SAVE15"]

/-! ## The scraping adapters (`scrapeCouponCodes`, server.ts 428–528) -/

/-- One code element of an aggregator page as the cheerio extraction sees
it: the clipboard/code attribute (absent when the attribute is missing),
the element text, and the description/verified markers found next to it. -/
structure RawElem where
  attrCode : Option String
  text : String
  description : String
  verified : Bool
deriving Repr, DecidableEq

/-- `codeElement.attr(...) || codeElement.text().trim()` (server.ts 479):
an absent or empty attribute falls back to the trimmed element text. -/
def elemCode (e : RawElem) : String :=
  match e.attrCode with
  | some a => if a = "" then String.mk (trimC e.text.toList) else a
  | none => String.mk (trimC e.text.toList)

/-- The extraction loop over one source's code elements
(server.ts 477–494): keep an element's code when it is non-empty and
passes `isPotentialCouponCode`, storing it upper-cased. -/
def extractSource (name : String) (elems : List RawElem) : List CouponCode :=
  elems.foldl
    (fun acc e =>
      let code := elemCode e
      if code ≠ "" && isPotentialCouponCode code then
        acc ++ [⟨toUpperS code, e.description, e.verified, name⟩]
      else acc)
    []

/-- One `.sc-heading` element of the RetailMeNot page. -/
structure RmnElem where
  text : String
  description : String
deriving Repr, DecidableEq

/-- The capture of `Use Code:` followed by optional whitespace and a
non-empty run of `[A-Za-z0-9-]` (the `i`-flagged regex of server.ts 512),
scanning left to right; `none` when no position matches. -/
def rmnCapture : List Char → Option (List Char)
  | [] => none
  | c :: rest =>
    let code := (((c :: rest).drop 9).dropWhile isSpaceC).takeWhile
      (fun d => isUpperA d || isLowerA d || isDigitC d || d = '-')
    if startsWithC ['u','s','e',' ','c','o','d','e',':'] (lowerC (c :: rest))
        && !code.isEmpty
      then some code
    else rmnCapture rest

/-- The RetailMeNot extraction loop (server.ts 510–522): a captured code
passing `isPotentialCouponCode` is stored upper-cased and marked verified. -/
def extractRmn (elems : List RmnElem) : List CouponCode :=
  elems.foldl
    (fun acc e =>
      (rmnCapture e.text.toList).elim acc (fun cap =>
        if isPotentialCouponCode (String.mk cap) then
          acc ++
            [⟨toUpperS (String.mk cap), e.description, true, "retailmenot"⟩]
        else acc))
    []

/-- The network outcome of one request's four fetches; `.error ()` stands
for any axios failure (timeout, HTTP error, redirect loop). -/
structure ScrapeOutcome where
  couponcabin : Except Unit (List RawElem)
  slickdeals : Except Unit (List RawElem)
  promocodes : Except Unit (List RawElem)
  retailmenot : Except Unit (List RmnElem)

/-- A failed fetch contributes zero candidates (the per-source catch of
server.ts 496–498 and 523–525). -/
def sourcePart (name : String) (r : Except Unit (List RawElem)) :
    List CouponCode :=
  match r with
  | .error _ => []
  | .ok elems => extractSource name elems

/-- The RetailMeNot contribution under its own catch. -/
def rmnPart (r : Except Unit (List RmnElem)) : List CouponCode :=
  match r with
  | .error _ => []
  | .ok elems => extractRmn elems

/-- `scrapeCouponCodes` (server.ts 428–528) over the fetch outcomes: the
candidates pushed to `allCodes` by the three cheerio sources and the
RetailMeNot pass. -/
def scrapeCouponCodes (o : ScrapeOutcome) : List CouponCode :=
  sourcePart "couponcabin" o.couponcabin
    ++ sourcePart "slickdeals" o.slickdeals
    ++ sourcePart "promocodes" o.promocodes
    ++ rmnPart o.retailmenot

/-! ## The discovery endpoint (`POST /api/coupons`, server.ts 373–426) -/

/-- The externally visible responses of the endpoint. -/
inductive ApiResponse where
  | ok (codes : List String)
  | badRequest (msg : String)
deriving Repr, DecidableEq

/-- The observable outcome of one request: the response, the cache after
the request, and how many times `scrapeCouponCodes` ran (0, 1 or 2). -/
structure HandlerOut where
  resp : ApiResponse
  cache : Cache
  scrapes : Nat
deriving Repr, DecidableEq

/-- `POST /api/coupons` (server.ts 373–426). `scrape storeName url` is the
candidate list `scrapeCouponCodes(storeName, url)` settles to; it is a
function parameter so that tests can count invocations. A missing or empty
`url`, or one `new URL` rejects, is answered with the 400 response before
any scraping; then the cache is consulted; then discovery, the hyphenless
retry, and the placeholder synthesis, each writing the cache. -/
def handleCoupons (scrape : String → String → List CouponCode) (now : Nat)
    (cache : Cache) (url? : Option String) : HandlerOut :=
  match url? with
  | none => ⟨.badRequest "Please enter a valid URL", cache, 0⟩
  | some url =>
    if url = "" || !isValidUrl url then
      ⟨.badRequest "Please enter a valid URL", cache, 0⟩
    else
      let got := getCachedResult now cache url
      match got.1 with
      | some data => ⟨.ok data, got.2, 0⟩
      | none =>
        let storeName := extractStoreName url
        let bestCodes := selectBestCodes (scrape storeName url)
        if bestCodes ≠ [] then
          ⟨.ok (bestCodes.map (·.code)),
            cacheResult url (bestCodes.map (·.code)) now got.2, 1⟩
        else
          let altStoreName := removeHyphens storeName
          if altStoreName ≠ storeName then
            let altBest := selectBestCodes (scrape altStoreName url)
            if altBest ≠ [] then
              ⟨.ok (altBest.map (·.code)),
                cacheResult url (altBest.map (·.code)) now got.2, 2⟩
            else
              ⟨.ok (generateCommonCodes storeName),
                cacheResult url (generateCommonCodes storeName) now got.2, 2⟩
          else
            ⟨.ok (generateCommonCodes storeName),
              cacheResult url (generateCommonCodes storeName) now got.2, 1⟩

/-! ## The puppeteer snapshots -/

/-- `ExtractedCouponData` (server.ts 10–17). -/
structure ExtractedCouponData where
  code : String
  description : String
  source : String
  isVerified : Bool
  discountPercent : Nat
deriving Repr, DecidableEq

/-- `parseInt` on a non-empty run of decimal digits. -/
def natOfDigits (ds : List Char) : Nat :=
  ds.foldl (fun n c => 10 * n + (c.toNat - 48)) 0

/-- The leftmost `(\d+)%` capture of a description, 0 when none occurs
(server.ts 128–129 and 206–207). -/
def discountOf : List Char → Nat
  | [] => 0
  | c :: rest =>
    let d := (c :: rest).takeWhile isDigitC
    if !d.isEmpty && decide (((c :: rest).drop d.length).head? = some '%') then
      natOfDigits d
    else discountOf rest

/-- The comparator of the puppeteer `scrapeCoupons` (server.ts 260–263):
verified first, then larger discount first. -/
def pupCompare (a b : ExtractedCouponData) : Int :=
  if a.isVerified != b.isVerified then (if b.isVerified then 1 else -1)
  else (b.discountPercent : Int) - (a.discountPercent : Int)

/-- "`a` may come before `b`" for the puppeteer comparator. -/
def pupLe (a b : ExtractedCouponData) : Bool := pupCompare a b ≤ 0

/-- `scrapeCoupons`'s collection step (server.ts 258–263): keep the
non-null per-source results, in source order Coupons.com then
CouponFollow, and sort them with the stable comparator above. -/
def collectValid (couponsCom couponFollow : Option ExtractedCouponData) :
    List ExtractedCouponData :=
  sortStable pupLe ([couponsCom, couponFollow].filterMap id)

/-- `/^[A-Z0-9-]{4,15}$/` (the unnamed snapshot's fallback grammar,
line 134). -/
def fallbackShape (cs : List Char) : Bool :=
  decide (4 ≤ cs.length) && decide (cs.length ≤ 15)
    && cs.all (fun c => isUpperA c || isDigitC c || c = '-')

/-- `CouponData` of the unnamed puppeteer snapshot (lines 9–13). -/
structure CouponData where
  code : String
  description : String
deriving Repr, DecidableEq

/-- The fallback text-pattern extractor (unnamed snapshot lines 131–136):
trim every text node, keep the non-empty ones matching the fallback
grammar, and label them `Fallback code`. -/
def fallbackCodes (texts : List String) : List CouponData :=
  ((texts.map (fun t => String.mk (trimC t.toList))).filter
      (fun t => t ≠ "" && fallbackShape t.toList)).map
    (fun t => ⟨t, "Fallback code"⟩)

/-! ## Spec-side definitions (for comparison with the source) -/

/-- Modelled from the spec (claim C5 wording): rank candidates by verified
descending, then discount percent descending (reading the discount from
the description as the puppeteer variants do), then the configured source
priority. Spec-side comparator, for comparison with `selectCompare`. -/
def specClaimLe (a b : CouponCode) : Bool :=
  if a.verified != b.verified then a.verified
  else if discountOf a.description.toList ≠ discountOf b.description.toList
  then decide (discountOf b.description.toList < discountOf a.description.toList)
  else decide (sourceRank b.source ≤ sourceRank a.source)

/-- Modelled from the spec (claim C5 wording): the claimed ranking
pipeline — dedup, sort by `specClaimLe`, truncate to the top 3. -/
def specRankedC5 (codes : List CouponCode) : List CouponCode :=
  (sortStable specClaimLe (dedupValues codes)).take 3

/-- Modelled from the spec (claim C6 wording): the trimmed upper-case form
has length 4–15, matches at least one listed pattern, and contains none of
the blacklisted markup tokens. Spec-side predicate, for comparison with
`isPotentialCouponCode`. -/
def specCodeShape (s : String) : Prop :=
  let cs := cleanCodeOf s.toList
  (4 ≤ cs.length ∧ cs.length ≤ 15)
    ∧ (patAlnum cs = true ∨ patSave cs = true ∨ patNew cs = true
        ∨ patOff cs = true ∨ patLDL cs = true ∨ patLLDD cs = true)
    ∧ ∀ t ∈ blacklistTokens, hasSubC t cs = false

/-! ## Characterizations used in theorem statements -/

/-- The first verified candidate with code `k`, if any. -/
def firstVerFor (codes : List CouponCode) (k : String) : Option CouponCode :=
  (codes.filter (fun c => c.code == k && c.verified)).head?

/-- The candidate the dedup pass keeps for code `k`: the first verified one
with that code when one exists, else the first one with that code. -/
def keptFor (codes : List CouponCode) (k : String) : Option CouponCode :=
  match firstVerFor codes k with
  | some v => some v
  | none => (codes.filter (fun c => c.code == k)).head?

/-- The sort key realised by `selectCompare`: verified adds 4, on top of
the 0–3 source rank. -/
def rkey (c : CouponCode) : Int :=
  (if c.verified then 4 else 0) + sourceRank c.source

/-! ## Helper lemmas: characters -/

theorem charOfNat_toNat (n : Nat) (h : n.isValidChar) :
    (Char.ofNat n).toNat = n := by
  unfold Char.ofNat
  rw [dif_pos h]
  rfl

theorem char_eq_iff_toNat (c d : Char) : c = d ↔ c.toNat = d.toNat := by
  constructor
  · intro h; rw [h]
  · intro h
    apply Char.eq_of_val_eq
    apply UInt32.eq_of_toBitVec_eq
    exact BitVec.toNat_injective h

theorem isLowerA_iff (c : Char) :
    isLowerA c = true ↔ 97 ≤ c.toNat ∧ c.toNat ≤ 122 := by
  simp only [isLowerA, Bool.and_eq_true, decide_eq_true_eq]
  exact Iff.rfl

theorem isUpperA_iff (c : Char) :
    isUpperA c = true ↔ 65 ≤ c.toNat ∧ c.toNat ≤ 90 := by
  simp only [isUpperA, Bool.and_eq_true, decide_eq_true_eq]
  exact Iff.rfl

theorem upChar_toNat_lower (c : Char) (h : isLowerA c = true) :
    (upChar c).toNat = c.toNat - 32 := by
  have hb := (isLowerA_iff c).mp h
  unfold upChar
  rw [if_pos h]
  exact charOfNat_toNat _ (Or.inl (by omega))

theorem upChar_not_lower (c : Char) (h : isLowerA c = false) : upChar c = c := by
  unfold upChar
  rw [if_neg (by simp [h])]

theorem lowChar_toNat_upper (c : Char) (h : isUpperA c = true) :
    (lowChar c).toNat = c.toNat + 32 := by
  have hb := (isUpperA_iff c).mp h
  unfold lowChar
  rw [if_pos h]
  exact charOfNat_toNat _ (Or.inl (by omega))

theorem lowChar_not_upper (c : Char) (h : isUpperA c = false) : lowChar c = c := by
  unfold lowChar
  rw [if_neg (by simp [h])]

theorem upChar_upChar (c : Char) : upChar (upChar c) = upChar c := by
  by_cases h : isLowerA c = true
  · have hb := (isLowerA_iff c).mp h
    have ht := upChar_toNat_lower c h
    apply upChar_not_lower
    rw [Bool.eq_false_iff]
    intro hlow
    have := (isLowerA_iff _).mp hlow
    omega
  · simp only [upChar_not_lower c (Bool.eq_false_iff.mpr h)]

theorem lowChar_lowChar (c : Char) : lowChar (lowChar c) = lowChar c := by
  by_cases h : isUpperA c = true
  · have hb := (isUpperA_iff c).mp h
    have ht := lowChar_toNat_upper c h
    apply lowChar_not_upper
    rw [Bool.eq_false_iff]
    intro hup
    have := (isUpperA_iff _).mp hup
    omega
  · simp only [lowChar_not_upper c (Bool.eq_false_iff.mpr h)]

theorem isSpaceC_iff (c : Char) :
    isSpaceC c = true ↔
      c.toNat = 32 ∨ c.toNat = 9 ∨ c.toNat = 10 ∨ c.toNat = 13 := by
  simp only [isSpaceC, Bool.or_eq_true, decide_eq_true_eq, char_eq_iff_toNat,
    show (' ').toNat = 32 from rfl, show ('\t').toNat = 9 from rfl,
    show ('\n').toNat = 10 from rfl, show ('\r').toNat = 13 from rfl]
  tauto

theorem isSpaceC_upChar (c : Char) : isSpaceC (upChar c) = isSpaceC c := by
  by_cases h : isLowerA c = true
  · have hb := (isLowerA_iff c).mp h
    have ht := upChar_toNat_lower c h
    rw [Bool.eq_iff_iff, isSpaceC_iff, isSpaceC_iff]
    omega
  · rw [upChar_not_lower c (Bool.eq_false_iff.mpr h)]

theorem lowChar_ne_of_lt (c d : Char) (hd : d.toNat < 65)
    (h : c ≠ d) : lowChar c ≠ d := by
  by_cases hc : isUpperA c = true
  · have hb := (isUpperA_iff c).mp hc
    have ht := lowChar_toNat_upper c hc
    intro he
    rw [char_eq_iff_toNat] at he
    omega
  · rw [lowChar_not_upper c (Bool.eq_false_iff.mpr hc)]
    exact h

/-! ## Helper lemmas: character lists -/

theorem upperC_upperC (s : List Char) : upperC (upperC s) = upperC s := by
  simp only [upperC, List.map_map]
  exact List.map_congr_left (fun c _ => upChar_upChar c)

theorem lowerC_lowerC (s : List Char) : lowerC (lowerC s) = lowerC s := by
  simp only [lowerC, List.map_map]
  exact List.map_congr_left (fun c _ => lowChar_lowChar c)

theorem trimC_upperC (s : List Char) : trimC (upperC s) = upperC (trimC s) := by
  have hfun : (isSpaceC ∘ upChar) = isSpaceC := funext isSpaceC_upChar
  unfold trimC upperC
  rw [List.dropWhile_map, hfun, ← List.map_reverse, List.dropWhile_map, hfun,
    ← List.map_reverse]

theorem cleanCodeOf_upperC (s : List Char) :
    cleanCodeOf (upperC s) = cleanCodeOf s := by
  simp only [cleanCodeOf, trimC_upperC, upperC_upperC]

theorem isPotentialC_upperC (s : List Char) :
    isPotentialCouponCodeC (upperC s) = isPotentialCouponCodeC s := by
  simp only [isPotentialCouponCodeC, cleanCodeOf_upperC]

theorem isPotential_toUpperS (s : String) :
    isPotentialCouponCode (toUpperS s) = isPotentialCouponCode s := by
  simp only [isPotentialCouponCode, toUpperS]
  exact isPotentialC_upperC s.toList

theorem toUpperS_ne_empty (s : String) (h : s ≠ "") : toUpperS s ≠ "" := by
  intro he
  apply h
  have hd : upperC s.data = [] := congrArg String.data he
  have hnil : s.data = [] := by
    have hlen := congrArg List.length hd
    simp only [upperC, List.length_map, List.length_nil] at hlen
    exact List.length_eq_zero.mp hlen
  cases s with
  | mk data => rw [show data = [] from hnil]

theorem startsWithC_self_append (p r : List Char) :
    startsWithC p (p ++ r) = true := by
  induction p with
  | nil => rfl
  | cons c cs ih => simp [startsWithC, ih]

/-- `takeWhile` passes over a block whose characters all satisfy `p`. -/
theorem takeWhile_append_all (p : Char → Bool) (a b : List Char)
    (h : ∀ c ∈ a, p c = true) :
    (a ++ b).takeWhile p = a ++ b.takeWhile p := by
  induction a with
  | nil => simp
  | cons x xs ih =>
    simp only [List.cons_append, List.takeWhile_cons]
    rw [h x (by simp)]
    simp [ih (fun c hc => h c (by simp [hc]))]

/-- A pattern starting with a dot first matches at the suffix when the
prefix has no dot. -/
theorem removeFirstSub_dot_suffix (x t : List Char) (h : '.' ∉ x) :
    removeFirstSub ('.' :: t) (x ++ '.' :: t) = x := by
  induction x with
  | nil =>
    have hs : startsWithC ('.' :: t) ('.' :: t) = true := by
      have := startsWithC_self_append ('.' :: t) []
      simpa using this
    simp only [List.nil_append, removeFirstSub, hs, if_true]
    exact List.drop_length ('.' :: t)
  | cons c cs ih =>
    have hc : c ≠ '.' := fun he => h (he ▸ List.mem_cons_self c cs)
    have hns : startsWithC ('.' :: t) (c :: (cs ++ '.' :: t)) = false := by
      simp only [startsWithC]
      rw [decide_eq_false (Ne.symm hc)]
      rfl
    have hih := ih (fun hm => h (List.mem_cons_of_mem c hm))
    simp only [List.cons_append, removeFirstSub, List.append_eq, hns,
      Bool.false_eq_true, if_false]
    exact congrArg (fun l => c :: l) hih

theorem stripDotRest_no_dot (x : List Char) (h : '.' ∉ x) :
    stripDotRest x = x := by
  induction x with
  | nil => rfl
  | cons c cs ih =>
    have hc : c ≠ '.' := fun he => h (he ▸ List.mem_cons_self c cs)
    simp only [stripDotRest]
    rw [if_neg (by simp [hc])]
    rw [ih (fun hm => h (List.mem_cons_of_mem c hm))]

/-! ## Helper lemmas: the `Map` model -/

theorem mGet_set_self {α : Type} (k : String) (v : α)
    (m : List (String × α)) : mGet k (mSet k v m) = some v := by
  induction m with
  | nil => simp [mSet, mGet]
  | cons p rest ih =>
    by_cases hk : p.1 = k
    · simp [mSet, hk, mGet]
    · simp [mSet, hk, mGet, ih]

theorem mGet_set_ne {α : Type} (k q : String) (v : α)
    (m : List (String × α)) (h : q ≠ k) : mGet q (mSet k v m) = mGet q m := by
  induction m with
  | nil =>
    simp only [mSet, mGet]
    rw [if_neg (fun he => h he.symm)]
  | cons p rest ih =>
    by_cases hk : p.1 = k
    · have hset : mSet k v (p :: rest) = (k, v) :: rest := by simp [mSet, hk]
      rw [hset]
      simp only [mGet]
      rw [if_neg (fun he => h he.symm),
        if_neg (fun he => h (hk.symm.trans he).symm)]
    · have hset : mSet k v (p :: rest) = p :: mSet k v rest := by
        simp [mSet, hk]
      rw [hset]
      simp only [mGet, ih]

theorem mGet_del_self {α : Type} (k : String)
    (m : List (String × α)) : mGet k (mDel k m) = none := by
  induction m with
  | nil => rfl
  | cons p rest ih =>
    by_cases hk : p.1 = k
    · simp [mDel, hk, ih]
    · simp [mDel, hk, mGet, ih]

theorem mem_mSet {α : Type} (k : String) (v : α) (m : List (String × α))
    (p : String × α) (h : p ∈ mSet k v m) : p = (k, v) ∨ p ∈ m := by
  induction m with
  | nil => simpa [mSet] using h
  | cons q rest ih =>
    by_cases hk : q.1 = k
    · have hset : mSet k v (q :: rest) = (k, v) :: rest := by simp [mSet, hk]
      rw [hset] at h
      rcases List.mem_cons.mp h with h | h
      · exact Or.inl h
      · exact Or.inr (List.mem_cons_of_mem q h)
    · have hset : mSet k v (q :: rest) = q :: mSet k v rest := by
        simp [mSet, hk]
      rw [hset] at h
      rcases List.mem_cons.mp h with h | h
      · exact Or.inr (h ▸ List.mem_cons_self q rest)
      · rcases ih h with h' | h'
        · exact Or.inl h'
        · exact Or.inr (List.mem_cons_of_mem q h')

theorem mGet_none_not_mem {α : Type} (k : String) (m : List (String × α))
    (h : mGet k m = none) : k ∉ m.map Prod.fst := by
  induction m with
  | nil => simp
  | cons p rest ih =>
    simp only [mGet] at h
    by_cases hk : p.1 = k
    · rw [if_pos hk] at h; exact absurd h (by simp)
    · rw [if_neg hk] at h
      simp only [List.map_cons, List.mem_cons]
      rintro (h' | h')
      · exact hk h'.symm
      · exact ih h h'

theorem mSet_fst_of_none {α : Type} (k : String) (v : α)
    (m : List (String × α)) (h : mGet k m = none) :
    (mSet k v m).map Prod.fst = m.map Prod.fst ++ [k] := by
  induction m with
  | nil => simp [mSet]
  | cons p rest ih =>
    simp only [mGet] at h
    by_cases hk : p.1 = k
    · rw [if_pos hk] at h; exact absurd h (by simp)
    · rw [if_neg hk] at h
      simp [mSet, hk, ih h]

theorem mSet_fst_of_some {α : Type} (k : String) (v e : α)
    (m : List (String × α)) (h : mGet k m = some e) :
    (mSet k v m).map Prod.fst = m.map Prod.fst := by
  induction m with
  | nil => simp [mGet] at h
  | cons p rest ih =>
    simp only [mGet] at h
    by_cases hk : p.1 = k
    · rw [if_pos hk] at h
      simp [mSet, hk]
    · rw [if_neg hk] at h
      simp [mSet, hk, ih h]

/-! ## Helper lemmas: the stable sort -/

theorem mem_insertS {α : Type} (le : α → α → Bool) (x a : α) (l : List α)
    (h : a ∈ insertS le x l) : a = x ∨ a ∈ l := by
  induction l with
  | nil => simpa [insertS] using h
  | cons y ys ih =>
    by_cases hle : le y x = true
    · have hins : insertS le x (y :: ys) = y :: insertS le x ys := by
        simp [insertS, hle]
      rw [hins] at h
      rcases List.mem_cons.mp h with h | h
      · exact Or.inr (h ▸ List.mem_cons_self y ys)
      · rcases ih h with h' | h'
        · exact Or.inl h'
        · exact Or.inr (List.mem_cons_of_mem y h')
    · have hins : insertS le x (y :: ys) = x :: y :: ys := by
        simp [insertS, hle]
      rw [hins] at h
      rcases List.mem_cons.mp h with h | h
      · exact Or.inl h
      · exact Or.inr h

theorem perm_insertS {α : Type} (le : α → α → Bool) (x : α) (l : List α) :
    (insertS le x l).Perm (x :: l) := by
  induction l with
  | nil => simp [insertS]
  | cons y ys ih =>
    by_cases hle : le y x = true
    · simp only [insertS, hle, if_true]
      exact (ih.cons y).trans (List.Perm.swap x y ys)
    · simp [insertS, hle]

theorem perm_sortStable {α : Type} (le : α → α → Bool) (l : List α) :
    (sortStable le l).Perm l := by
  have haux : ∀ (l acc : List α),
      (l.foldl (fun a x => insertS le x a) acc).Perm (acc ++ l) := by
    intro l
    induction l with
    | nil => intro acc; simp
    | cons x xs ih =>
      intro acc
      have h1 := ih (insertS le x acc)
      have h2 : (insertS le x acc ++ xs).Perm ((x :: acc) ++ xs) :=
        (perm_insertS le x acc).append_right xs
      have h3 : ((x :: acc) ++ xs).Perm (acc ++ x :: xs) := by
        simpa using List.perm_middle.symm
      exact (h1.trans h2).trans h3
  simpa using haux l []

theorem pairwise_insertS {α : Type} (le : α → α → Bool)
    (htot : ∀ a b, le a b = true ∨ le b a = true)
    (htr : ∀ a b c, le a b = true → le b c = true → le a c = true)
    (x : α) (l : List α) (h : l.Pairwise (fun a b => le a b = true)) :
    (insertS le x l).Pairwise (fun a b => le a b = true) := by
  induction l with
  | nil => simp [insertS]
  | cons y ys ih =>
    rcases List.pairwise_cons.mp h with ⟨hy, hys⟩
    by_cases hle : le y x = true
    · simp only [insertS, hle, if_true]
      refine List.pairwise_cons.mpr ⟨?_, ih hys⟩
      intro z hz
      rcases mem_insertS le x z ys hz with h' | h'
      · exact h' ▸ hle
      · exact hy z h'
    · have hxy : le x y = true := (htot x y).resolve_right (fun hc => hle hc)
      simp only [insertS, hle, if_false]
      refine List.pairwise_cons.mpr ⟨?_, h⟩
      intro z hz
      rcases List.mem_cons.mp hz with h' | h'
      · exact h' ▸ hxy
      · exact htr x y z hxy (hy z h')

theorem pairwise_sortStable {α : Type} (le : α → α → Bool)
    (htot : ∀ a b, le a b = true ∨ le b a = true)
    (htr : ∀ a b c, le a b = true → le b c = true → le a c = true)
    (l : List α) :
    (sortStable le l).Pairwise (fun a b => le a b = true) := by
  have haux : ∀ (l acc : List α),
      acc.Pairwise (fun a b => le a b = true) →
      (l.foldl (fun a x => insertS le x a) acc).Pairwise
        (fun a b => le a b = true) := by
    intro l
    induction l with
    | nil => intro acc h; simpa using h
    | cons x xs ih =>
      intro acc h
      exact ih (insertS le x acc) (pairwise_insertS le htot htr x acc h)
  exact haux l [] (by simp)

/-! ## Helper lemmas: the ranking comparator -/

theorem sourceRank_bounds (s : String) :
    0 ≤ sourceRank s ∧ sourceRank s ≤ 3 := by
  unfold sourceRank
  split_ifs <;> norm_num

theorem rankLe_total (a b : CouponCode) :
    rankLe a b = true ∨ rankLe b a = true := by
  have hb1 := sourceRank_bounds a.source
  have hb2 := sourceRank_bounds b.source
  cases hav : a.verified <;> cases hbv : b.verified <;>
    simp [rankLe, selectCompare, hav, hbv] <;> omega

theorem rankLe_trans (a b c : CouponCode) (hab : rankLe a b = true)
    (hbc : rankLe b c = true) : rankLe a c = true := by
  have hb1 := sourceRank_bounds a.source
  have hb2 := sourceRank_bounds b.source
  have hb3 := sourceRank_bounds c.source
  cases hav : a.verified <;> cases hbv : b.verified <;>
      cases hcv : c.verified <;>
    simp [rankLe, selectCompare, hav, hbv, hcv] at * <;> omega

/-! ## Helper lemmas: the endpoint -/

theorem handle_invalid (scrape : String → String → List CouponCode)
    (now : Nat) (cache : Cache) (url : String)
    (h : isValidUrl url = false) :
    handleCoupons scrape now cache (some url) =
      ⟨.badRequest "Please enter a valid URL", cache, 0⟩ := by
  show (if (decide (url = "") || !isValidUrl url) = true then _ else _) = _
  rw [if_pos (by simp [h])]

theorem handle_hit (scrape : String → String → List CouponCode)
    (now : Nat) (cache : Cache) (url : String) (data : List String)
    (ts : Nat) (hne : url ≠ "") (hv : isValidUrl url = true)
    (hget : mGet url cache = some ⟨data, ts⟩)
    (hfresh : now - ts ≤ CACHE_DURATION) :
    handleCoupons scrape now cache (some url) = ⟨.ok data, cache, 0⟩ := by
  show (if (decide (url = "") || !isValidUrl url) = true then _ else _) = _
  rw [if_neg (by simp [hne, hv])]
  simp only [getCachedResult, hget]
  rw [if_neg (by omega)]

theorem handle_miss (scrape : String → String → List CouponCode)
    (now : Nat) (cache : Cache) (url : String) (hne : url ≠ "")
    (hv : isValidUrl url = true) (hmiss : mGet url cache = none) :
    ∃ data n, handleCoupons scrape now cache (some url) =
      ⟨.ok data, mSet url ⟨data, now⟩ cache, n⟩ := by
  show ∃ data n,
    (if (decide (url = "") || !isValidUrl url) = true then _ else _) = _
  rw [if_neg (by simp [hne, hv])]
  simp only [getCachedResult, hmiss]
  split
  · exact ⟨_, _, rfl⟩
  · split
    · split
      · exact ⟨_, _, rfl⟩
      · exact ⟨_, _, rfl⟩
    · exact ⟨_, _, rfl⟩

/-- When both discovery rounds rank empty, the endpoint answers with the
placeholder codes and caches them under the input URL. -/
theorem handle_common (scrape : String → String → List CouponCode)
    (now : Nat) (cache : Cache) (url : String) (hne : url ≠ "")
    (hv : isValidUrl url = true) (hmiss : mGet url cache = none)
    (h1 : selectBestCodes (scrape (extractStoreName url) url) = [])
    (h2 : selectBestCodes
      (scrape (removeHyphens (extractStoreName url)) url) = []) :
    ∃ n, handleCoupons scrape now cache (some url) =
      ⟨.ok (generateCommonCodes (extractStoreName url)),
        mSet url ⟨generateCommonCodes (extractStoreName url), now⟩ cache,
        n⟩ := by
  show ∃ n,
    (if (decide (url = "") || !isValidUrl url) = true then _ else _) = _
  rw [if_neg (by simp [hne, hv])]
  simp only [getCachedResult, hmiss, h1, h2, ne_eq, not_true_eq_false,
    Bool.false_eq_true, if_false]
  split
  · exact ⟨2, rfl⟩
  · exact ⟨1, rfl⟩

/-- C1: for every input string that does not parse as an absolute URL, the
discovery entry point answers with the 400 rejection, leaves the cache
untouched, and performs zero scraping work (the rejection happens before
any session is acquired). -/
theorem C1_invalid_url_rejected (scrape : String → String → List CouponCode)
    (now : Nat) (cache : Cache) (s : String) (h : parseURL s = none) :
    handleCoupons scrape now cache (some s) =
      ⟨.badRequest "Please enter a valid URL", cache, 0⟩ :=
  handle_invalid scrape now cache s (by simp [isValidUrl, h])

theorem C1_witness :
    parseURL "notaurl" = none ∧
      handleCoupons (fun _ _ => []) 0 [] (some "notaurl") =
        ⟨.badRequest "Please enter a valid URL", [], 0⟩ :=
  ⟨by decide, C1_invalid_url_rejected (fun _ _ => []) 0 [] "notaurl" (by decide)⟩

/-- C2: when the ranked result of discovery is empty and the retry through
the same adapters with the hyphen-free slug is also empty, the response is
the deterministic placeholder list synthesized from the slug; concretely,
`https://www.examplestore.com` with no candidates yields exactly
`["EXAMPLESTORE10", "WELCOME10", "SAVE15"]` (and a hyphenated slug shows
the literal second adapter round, `scrapes = 2`). -/
theorem C2_empty_discovery_placeholders
    (scrape : String → String → List CouponCode) (now : Nat) (cache : Cache)
    (u : String) (hne : u ≠ "") (hv : isValidUrl u = true)
    (hmiss : mGet u cache = none)
    (h1 : selectBestCodes (scrape (extractStoreName u) u) = [])
    (h2 : selectBestCodes (scrape (removeHyphens (extractStoreName u)) u)
      = []) :
    (handleCoupons scrape now cache (some u)).resp =
      .ok (generateCommonCodes (extractStoreName u))
    ∧ handleCoupons (fun _ _ => []) 0 []
        (some "https://www.examplestore.com") =
      ⟨.ok ["EXAMPLESTORE10", "WELCOME10", "SAVE15"],
        [("https://www.examplestore.com",
          ⟨["EXAMPLESTORE10", "WELCOME10", "SAVE15"], 0⟩)], 1⟩
    ∧ handleCoupons (fun _ _ => []) 0 [] (some "https://www.my-shop.com") =
      ⟨.ok ["MY-SHOP10", "WELCOME10", "SAVE15"],
        [("https://www.my-shop.com",
          ⟨["MY-SHOP10", "WELCOME10", "SAVE15"], 0⟩)], 2⟩ := by
  obtain ⟨n, hn⟩ :=
    handle_common scrape now cache u hne hv hmiss h1 h2
  exact ⟨by rw [hn], by decide, by decide⟩

theorem C2_witness :
    ("https://www.examplestore.com" : String) ≠ ""
    ∧ isValidUrl "https://www.examplestore.com" = true
    ∧ (handleCoupons (fun _ _ => []) 0 []
        (some "https://www.examplestore.com")).resp =
      .ok (generateCommonCodes (extractStoreName
        "https://www.examplestore.com")) :=
  ⟨by decide, by decide,
    (C2_empty_discovery_placeholders (fun _ _ => []) 0 []
      "https://www.examplestore.com" (by decide) (by decide) rfl rfl rfl).1⟩

/-- C3: `get` after `put` returns the stored value exactly while `now`
minus the put's timestamp is within the 1-hour ttl, and evicts the entry on
the read once the ttl has elapsed; consequently a second request for the
same URL within the ttl of a first (cache-missing) request returns the
identical result and runs the adapters zero further times. -/
theorem C3_cache_ttl_idempotence
    (scrape : String → String → List CouponCode) (u : String)
    (t1 t2 : Nat) (cache0 : Cache) (hne : u ≠ "")
    (hv : isValidUrl u = true) (hmiss : mGet u cache0 = none)
    (ht : t2 - t1 ≤ CACHE_DURATION) :
    (∀ (c : Cache) (r : List String) (t now : Nat),
      (now - t ≤ CACHE_DURATION →
        getCachedResult now (cacheResult u r t c) u =
          (some r, cacheResult u r t c))
      ∧ (CACHE_DURATION < now - t →
        (getCachedResult now (cacheResult u r t c) u).1 = none
        ∧ mGet u (getCachedResult now (cacheResult u r t c) u).2 = none))
    ∧ ∀ (data : List String) (cache1 : Cache) (n1 : Nat),
        handleCoupons scrape t1 cache0 (some u) = ⟨.ok data, cache1, n1⟩ →
        handleCoupons scrape t2 cache1 (some u) = ⟨.ok data, cache1, 0⟩ := by
  constructor
  · intro c r t now
    constructor
    · intro hle
      simp only [getCachedResult, cacheResult, mGet_set_self]
      rw [if_neg (by omega)]
    · intro hgt
      simp only [getCachedResult, cacheResult, mGet_set_self]
      rw [if_pos (by omega)]
      exact ⟨rfl, mGet_del_self u _⟩
  · intro data cache1 n1 h1
    obtain ⟨d0, n0, h0⟩ := handle_miss scrape t1 cache0 u hne hv hmiss
    rw [h0] at h1
    have hdata : d0 = data := by
      have := congrArg HandlerOut.resp h1
      simpa using this
    have hcache : cache1 = mSet u ⟨d0, t1⟩ cache0 := by
      have := congrArg HandlerOut.cache h1
      simp at this
      exact this.symm
    subst hdata
    rw [hcache]
    exact handle_hit scrape t2 _ u d0 t1 hne hv (mGet_set_self u _ cache0)
      (by omega)

theorem C3_witness :
    handleCoupons (fun _ _ => []) 1000
      [("https://www.examplestore.com",
        ⟨["EXAMPLESTORE10", "WELCOME10", "SAVE15"], 0⟩)]
      (some "https://www.examplestore.com") =
    ⟨.ok ["EXAMPLESTORE10", "WELCOME10", "SAVE15"],
      [("https://www.examplestore.com",
        ⟨["EXAMPLESTORE10", "WELCOME10", "SAVE15"], 0⟩)], 0⟩ :=
  (C3_cache_ttl_idempotence (fun _ _ => []) "https://www.examplestore.com"
    0 1000 [] (by decide) (by decide) rfl (by decide)).2
    ["EXAMPLESTORE10", "WELCOME10", "SAVE15"]
    [("https://www.examplestore.com",
      ⟨["EXAMPLESTORE10", "WELCOME10", "SAVE15"], 0⟩)] 1 (by decide)

/-- C10: when discovery and the hyphenless retry both rank empty, the
placeholder codes are cached under the input URL with the same entry shape
as real discoveries, so a later request within the ttl returns the same
placeholders with zero adapter invocations. -/
theorem C10_placeholders_cached
    (scrape : String → String → List CouponCode) (u : String)
    (t1 t2 : Nat) (cache0 : Cache) (hne : u ≠ "")
    (hv : isValidUrl u = true) (hmiss : mGet u cache0 = none)
    (h1 : selectBestCodes (scrape (extractStoreName u) u) = [])
    (h2 : selectBestCodes (scrape (removeHyphens (extractStoreName u)) u)
      = [])
    (ht : t2 - t1 ≤ CACHE_DURATION) :
    (handleCoupons scrape t1 cache0 (some u)).resp =
      .ok (generateCommonCodes (extractStoreName u))
    ∧ mGet u (handleCoupons scrape t1 cache0 (some u)).cache =
      some ⟨generateCommonCodes (extractStoreName u), t1⟩
    ∧ handleCoupons scrape t2 (handleCoupons scrape t1 cache0 (some u)).cache
        (some u) =
      ⟨.ok (generateCommonCodes (extractStoreName u)),
        (handleCoupons scrape t1 cache0 (some u)).cache, 0⟩ := by
  obtain ⟨n, hn⟩ := handle_common scrape t1 cache0 u hne hv hmiss h1 h2
  rw [hn]
  refine ⟨rfl, mGet_set_self u _ cache0, ?_⟩
  exact handle_hit scrape t2 _ u _ t1 hne hv (mGet_set_self u _ cache0)
    (by omega)

theorem C10_witness :
    (handleCoupons (fun _ _ => []) 0 []
      (some "https://www.examplestore.com")).resp =
      .ok (generateCommonCodes (extractStoreName
        "https://www.examplestore.com"))
    ∧ mGet "https://www.examplestore.com"
        (handleCoupons (fun _ _ => []) 0 []
          (some "https://www.examplestore.com")).cache =
      some ⟨generateCommonCodes (extractStoreName
        "https://www.examplestore.com"), 0⟩
    ∧ handleCoupons (fun _ _ => []) 1800000
        (handleCoupons (fun _ _ => []) 0 []
          (some "https://www.examplestore.com")).cache
        (some "https://www.examplestore.com") =
      ⟨.ok (generateCommonCodes (extractStoreName
          "https://www.examplestore.com")),
        (handleCoupons (fun _ _ => []) 0 []
          (some "https://www.examplestore.com")).cache, 0⟩ :=
  C10_placeholders_cached (fun _ _ => []) "https://www.examplestore.com"
    0 1800000 [] (by decide) (by decide) rfl rfl rfl (by decide)

/-- A valid request is always answered with a 200 list, whatever the
adapters produced. -/
theorem handle_ok_of_valid (scrape : String → String → List CouponCode)
    (now : Nat) (cache : Cache) (u : String) (hne : u ≠ "")
    (hv : isValidUrl u = true) :
    ∃ codes cache' n, handleCoupons scrape now cache (some u) =
      ⟨.ok codes, cache', n⟩ := by
  show ∃ codes cache' n,
    (if (decide (u = "") || !isValidUrl u) = true then _ else _) = _
  rw [if_neg (by simp [hne, hv])]
  split
  · exact ⟨_, _, _, rfl⟩
  · dsimp only
    split
    · exact ⟨_, _, _, rfl⟩
    · split
      · split
        · exact ⟨_, _, _, rfl⟩
        · exact ⟨_, _, _, rfl⟩
      · exact ⟨_, _, _, rfl⟩

/-- C7: a failure inside any single adapter is caught and contributes zero
candidates from that adapter only — the other adapters' candidates are
unchanged — and a valid request always produces a 200 response (only the
invalid-URL rejection is ever surfaced by this pipeline). -/
theorem C7_adapter_failure_isolated :
    (∀ (o : ScrapeOutcome) (e : Unit),
      scrapeCouponCodes { o with couponcabin := .error e } =
        scrapeCouponCodes { o with couponcabin := .ok [] }
      ∧ scrapeCouponCodes { o with slickdeals := .error e } =
        scrapeCouponCodes { o with slickdeals := .ok [] }
      ∧ scrapeCouponCodes { o with promocodes := .error e } =
        scrapeCouponCodes { o with promocodes := .ok [] }
      ∧ scrapeCouponCodes { o with retailmenot := .error e } =
        scrapeCouponCodes { o with retailmenot := .ok [] })
    ∧ ∀ (scrape : String → String → List CouponCode) (now : Nat)
        (cache : Cache) (u : String), u ≠ "" → isValidUrl u = true →
        ∃ codes cache' n, handleCoupons scrape now cache (some u) =
          ⟨.ok codes, cache', n⟩ :=
  ⟨fun _ _ => ⟨rfl, rfl, rfl, rfl⟩,
    fun scrape now cache u hne hv =>
      handle_ok_of_valid scrape now cache u hne hv⟩

theorem C7_witness :
    ∃ codes cache' n,
      handleCoupons (fun _ _ => []) 0 []
        (some "https://www.examplestore.com") = ⟨.ok codes, cache', n⟩ :=
  C7_adapter_failure_isolated.2 (fun _ _ => []) 0 []
    "https://www.examplestore.com" (by decide) (by decide)

/-! ## Helper lemmas: parsing `https://www.<label>.com` URLs -/

theorem takeWhile_all (p : Char → Bool) (a : List Char)
    (h : ∀ c ∈ a, p c = true) : a.takeWhile p = a := by
  induction a with
  | nil => rfl
  | cons x xs ih =>
    simp only [List.takeWhile_cons, h x (by simp)]
    simp [ih (fun c hc => h c (by simp [hc]))]

theorem removeFirstSub_self_append (p r : List Char) (hp : p ≠ []) :
    removeFirstSub p (p ++ r) = r := by
  cases p with
  | nil => exact absurd rfl hp
  | cons c cs =>
    simp only [List.cons_append, List.append_eq, removeFirstSub]
    rw [if_pos (show startsWithC (c :: cs) (c :: (cs ++ r)) = true from by
      have := startsWithC_self_append (c :: cs) r
      rwa [List.cons_append] at this)]
    simp only [List.length_cons, List.drop_succ_cons]
    exact List.drop_left cs r

theorem parseURLC_www_com (l : List Char)
    (hdelim : ∀ c ∈ l,
      (c = '/' || c = '?' || c = '#' || c = ':' : Bool) = false) :
    parseURLC ("https://www.".toList ++ (l ++ ".com".toList)) =
      some ("https".toList, lowerC ("www.".toList ++ (l ++ ".com".toList))) := by
  have hsch : List.takeWhile isAsciiLetter
      ("https://www.".toList ++ (l ++ ".com".toList)) = "https".toList := by
    rw [show ("https://www.".toList ++ (l ++ ".com".toList)) =
      "https".toList ++
        (':' :: ("//www.".toList ++ (l ++ ".com".toList))) by simp]
    rw [takeWhile_append_all _ _ _ (by decide)]
    rfl
  have hq : ∀ c ∈ ("www.".toList ++ (l ++ ".com".toList)),
      (!(c = '/' || c = '?' || c = '#' || c = ':')) = true := by
    intro c hc
    rcases List.mem_append.mp hc with h | h
    · fin_cases h <;> decide
    · rcases List.mem_append.mp h with h' | h'
      · simp [hdelim c h']
      · fin_cases h' <;> decide
  have hdrop : ("https://www.".toList ++ (l ++ ".com".toList)).drop
      ("https".toList).length =
      ':' :: '/' :: '/' :: ("www.".toList ++ (l ++ ".com".toList)) := rfl
  have hhost : List.takeWhile
      (fun c => !(c = '/' || c = '?' || c = '#' || c = ':'))
      ("www.".toList ++ (l ++ ".com".toList)) =
      "www.".toList ++ (l ++ ".com".toList) :=
    takeWhile_all _ _ hq
  have hdrop3 : List.drop 3
      (':' :: '/' :: '/' :: ("www.".toList ++ (l ++ ".com".toList))) =
      "www.".toList ++ (l ++ ".com".toList) := rfl
  unfold parseURLC
  rw [hsch]
  dsimp only
  rw [hdrop, if_neg (by decide),
    if_pos (show startsWithC [':', '/', '/']
      (':' :: '/' :: '/' :: ("www.".toList ++ (l ++ ".com".toList))) = true
      from rfl)]
  rw [hdrop3, hhost, if_neg (by simp)]

theorem parseURL_www_com (s : String)
    (hdelim : ∀ c ∈ s.toList,
      (c = '/' || c = '?' || c = '#' || c = ':' : Bool) = false) :
    parseURL ("https://www." ++ s ++ ".com") =
      some ⟨"https",
        String.mk ("www.".toList ++ (lowerC s.toList ++ ".com".toList))⟩ := by
  have h1 : ("https://www." ++ s ++ ".com").toList =
      ("https://www." ++ s).toList ++ ".com".toList := String.data_append _ _
  have h2 : ("https://www." ++ s).toList =
      "https://www.".toList ++ s.toList := String.data_append _ _
  have htl : ("https://www." ++ s ++ ".com").toList =
      "https://www.".toList ++ (s.toList ++ ".com".toList) := by
    rw [h1, h2, List.append_assoc]
  have hlow : lowerC ("www.".toList ++ (s.toList ++ ".com".toList)) =
      "www.".toList ++ (lowerC s.toList ++ ".com".toList) := by
    simp only [lowerC, List.map_append,
      show List.map lowChar "www.".toList = "www.".toList by decide,
      show List.map lowChar ".com".toList = ".com".toList by decide]
  unfold parseURL
  rw [htl, parseURLC_www_com s.toList hdelim]
  simp only [Option.map_some']
  rw [hlow]
  rfl

theorem toList_mk (l : List Char) : (String.mk l).toList = l := rfl

theorem C8_extract_core (s : String) (hdot : ∀ c ∈ s.toList, c ≠ '.')
    (hdelim : ∀ c ∈ s.toList,
      (c = '/' || c = '?' || c = '#' || c = ':' : Bool) = false) :
    extractStoreName ("https://www." ++ s ++ ".com") = toLowerS s := by
  have hld : '.' ∉ lowerC s.toList := by
    intro hm
    rcases List.mem_map.mp hm with ⟨c, hc, he⟩
    exact lowChar_ne_of_lt c '.' (by decide) (hdot c hc) he
  unfold extractStoreName
  rw [parseURL_www_com s hdelim]
  show String.mk (lowerC (stripDotRest (removeFirstSub ['.', 'c', 'o', 'm']
    (removeFirstSub ['w', 'w', 'w', '.']
      (String.mk ("www.".toList ++
        (lowerC s.toList ++ ".com".toList))).toList)))) = toLowerS s
  rw [toList_mk,
    show ("www.".toList : List Char) = ['w', 'w', 'w', '.'] from rfl,
    removeFirstSub_self_append ['w', 'w', 'w', '.'] _ (by decide),
    show (".com".toList : List Char) = '.' :: ['c', 'o', 'm'] from rfl,
    removeFirstSub_dot_suffix (lowerC s.toList) ['c', 'o', 'm'] hld,
    stripDotRest_no_dot (lowerC s.toList) hld, lowerC_lowerC]
  rfl

theorem takeWhile_ne_dot (x : List Char) (hx : '.' ∉ x) :
    (x ++ '.' :: ['c', 'o', 'm']).takeWhile (fun c => decide (c ≠ '.')) =
      x := by
  have hall : ∀ c ∈ x, (fun c => decide (c ≠ '.')) c = true := by
    intro c hc
    simp only [decide_eq_true_eq]
    exact fun he => hx (he ▸ hc)
  rw [takeWhile_append_all (fun c => decide (c ≠ '.')) x
    ('.' :: ['c', 'o', 'm']) hall]
  rw [show List.takeWhile (fun c => decide (c ≠ '.'))
    ('.' :: ['c', 'o', 'm']) = ([] : List Char) from rfl]
  simp

theorem C8_pup_core (s : String) (hdot : ∀ c ∈ s.toList, c ≠ '.')
    (hdelim : ∀ c ∈ s.toList,
      (c = '/' || c = '?' || c = '#' || c = ':' : Bool) = false) :
    pupSlug ("https://www." ++ s ++ ".com") =
      some (String.mk (removeStoreWords (lowerC s.toList))) := by
  have hld : '.' ∉ lowerC s.toList := by
    intro hm
    rcases List.mem_map.mp hm with ⟨c, hc, he⟩
    exact lowChar_ne_of_lt c '.' (by decide) (hdot c hc) he
  unfold pupSlug
  rw [parseURL_www_com s hdelim]
  simp only [Option.map_some']
  rw [show ("www.".toList : List Char) = ['w', 'w', 'w', '.'] from rfl,
    toList_mk,
    removeFirstSub_self_append ['w', 'w', 'w', '.'] _ (by decide),
    show (".com".toList : List Char) = '.' :: ['c', 'o', 'm'] from rfl,
    takeWhile_ne_dot (lowerC s.toList) hld, lowerC_lowerC]

theorem C8_spec_core (s : String) (hdot : ∀ c ∈ s.toList, c ≠ '.')
    (hdelim : ∀ c ∈ s.toList,
      (c = '/' || c = '?' || c = '#' || c = ':' : Bool) = false) :
    specStoreSlug ("https://www." ++ s ++ ".com") =
      some (String.mk (removeStoreWords (lowerC s.toList))) := by
  have hld : '.' ∉ lowerC s.toList := by
    intro hm
    rcases List.mem_map.mp hm with ⟨c, hc, he⟩
    exact lowChar_ne_of_lt c '.' (by decide) (hdot c hc) he
  unfold specStoreSlug
  rw [parseURL_www_com s hdelim]
  simp only [Option.map_some']
  rw [show ("www.".toList : List Char) = ['w', 'w', 'w', '.'] from rfl,
    toList_mk,
    removeFirstSub_self_append ['w', 'w', 'w', '.'] _ (by decide),
    show (".com".toList : List Char) = '.' :: ['c', 'o', 'm'] from rfl,
    takeWhile_ne_dot (lowerC s.toList) hld]

/-- C8 counterexample: `extractStoreName` (the normalizer of the discovery
endpoint) does not remove the `shop` substring the claim requires: on
`https://www.myshop.net` it returns `myshop`, while the claim's normalizer
returns `my`. -/
theorem C8_counterexample :
    extractStoreName "https://www.myshop.net" = "myshop"
    ∧ specStoreSlug "https://www.myshop.net" = some "my"
    ∧ extractStoreName "https://www.myshop.net" ≠ "my" :=
  ⟨by decide, by decide, by decide⟩

/-- C8 amended: on hostnames `www.<label>.com` (no dot or delimiter inside
the label), `extractStoreName` returns the label merely lower-cased —
stripping `www.` and the trailing `.com` but removing no substrings —
whereas the puppeteer variants' inline slug, like the spec's normalizer,
also deletes every `clothing`/`shop`/`store`/`online` occurrence. -/
theorem C8_amended_normalizers (s : String)
    (hdot : ∀ c ∈ s.toList, c ≠ '.')
    (hdelim : ∀ c ∈ s.toList,
      (c = '/' || c = '?' || c = '#' || c = ':' : Bool) = false) :
    extractStoreName ("https://www." ++ s ++ ".com") = toLowerS s
    ∧ pupSlug ("https://www." ++ s ++ ".com") =
      some (String.mk (removeStoreWords (lowerC s.toList)))
    ∧ specStoreSlug ("https://www." ++ s ++ ".com") =
      some (String.mk (removeStoreWords (lowerC s.toList))) :=
  ⟨C8_extract_core s hdot hdelim, C8_pup_core s hdot hdelim,
    C8_spec_core s hdot hdelim⟩

theorem C8_witness :
    extractStoreName ("https://www." ++ "myshop" ++ ".com") =
      toLowerS "myshop"
    ∧ pupSlug ("https://www." ++ "myshop" ++ ".com") =
      some (String.mk (removeStoreWords (lowerC "myshop".toList)))
    ∧ specStoreSlug ("https://www." ++ "myshop" ++ ".com") =
      some (String.mk (removeStoreWords (lowerC "myshop".toList))) :=
  C8_amended_normalizers "myshop" (by decide) (by decide)

/-- The gate structure of `isPotentialCouponCode` matches the grammar
description: length window, at least one pattern, no blacklisted token. -/
theorem code_shape_iff (s : String) :
    isPotentialCouponCode s = true ↔ specCodeShape s := by
  unfold isPotentialCouponCode isPotentialCouponCodeC specCodeShape
  dsimp only
  split_ifs with h1 h2 h3
  · simp only [Bool.false_eq_true, false_iff]
    intro hspec
    rcases hspec with ⟨⟨hge, hle⟩, _, _⟩
    simp only [Bool.or_eq_true, decide_eq_true_eq] at h1
    omega
  · simp only [Bool.false_eq_true, false_iff]
    intro hspec
    rcases hspec with ⟨_, hp, _⟩
    simp only [Bool.not_eq_true', Bool.or_eq_false_iff] at h2
    rcases hp with h | h | h | h | h | h <;> simp_all
  · simp only [Bool.false_eq_true, false_iff]
    intro hspec
    rcases hspec with ⟨_, _, hb⟩
    rcases List.any_eq_true.mp h3 with ⟨t, ht, htt⟩
    have := hb t ht
    simp_all
  · simp only [true_iff]
    refine ⟨?_, ?_, ?_⟩
    · simp only [Bool.or_eq_true, decide_eq_true_eq, not_or, not_lt] at h1
      omega
    · simp only [Bool.not_eq_true', Bool.not_eq_false, Bool.or_eq_true] at h2
      tauto
    · intro t ht
      have h3' : List.all blacklistTokens
          (fun t => !hasSubC t (cleanCodeOf s.toList)) = true := by
        rw [List.all_eq_true]
        intro t' ht'
        by_contra hc
        exact h3 (List.any_eq_true.mpr ⟨t', ht', by simpa using hc⟩)
      have := List.all_eq_true.mp h3' t ht
      simpa using this

/-- C6: the code-shape predicate accepts a string exactly when its trimmed
upper-case form has length 4–15, matches at least one of the six listed
patterns, and contains no blacklisted markup token; `SAVE15`, `WELCOME10`
and `10OFF` pass while `DOCTYPE`, `HTTP` and `AB` fail. -/
theorem C6_code_shape_grammar :
    (∀ s : String, isPotentialCouponCode s = true ↔ specCodeShape s)
    ∧ isPotentialCouponCode "SAVE15" = true
    ∧ isPotentialCouponCode "WELCOME10" = true
    ∧ isPotentialCouponCode "10OFF" = true
    ∧ isPotentialCouponCode "DOCTYPE" = false
    ∧ isPotentialCouponCode "HTTP" = false
    ∧ isPotentialCouponCode "AB" = false :=
  ⟨code_shape_iff, by decide, by decide, by decide, by decide, by decide,
    by decide⟩

/-- C5 counterexample: `selectBestCodes` never consults a discount — its
candidates carry none — so two verified candidates whose descriptions
advertise 10% and 20% are ordered by the source ranking (retailmenot
first), not by discount as the claim's ranking would order them. -/
theorem C5_counterexample :
    selectBestCodes
      [⟨"AAAA", "10% off", true, "retailmenot"⟩,
       ⟨"BBBB", "20% off", true, "slickdeals"⟩] =
      [⟨"AAAA", "10% off", true, "retailmenot"⟩,
       ⟨"BBBB", "20% off", true, "slickdeals"⟩]
    ∧ specRankedC5
      [⟨"AAAA", "10% off", true, "retailmenot"⟩,
       ⟨"BBBB", "20% off", true, "slickdeals"⟩] =
      [⟨"BBBB", "20% off", true, "slickdeals"⟩,
       ⟨"AAAA", "10% off", true, "retailmenot"⟩]
    ∧ selectBestCodes
      [⟨"AAAA", "10% off", true, "retailmenot"⟩,
       ⟨"BBBB", "20% off", true, "slickdeals"⟩] ≠
      specRankedC5
      [⟨"AAAA", "10% off", true, "retailmenot"⟩,
       ⟨"BBBB", "20% off", true, "slickdeals"⟩] :=
  ⟨by decide, by decide, by decide⟩

/-- C5 amended: `selectBestCodes` sorts the deduplicated candidates by
verified-descending and then the fixed source priority
(retailmenot > couponcabin > promocodes > slickdeals) — discount is not a
key — and truncates to the top 3; the discount ordering of the claim's
example lives in the puppeteer variant, whose per-source best results are
sorted by verified then discount-descending, putting a verified 20%
candidate before a verified 10% one. -/
theorem C5_ranking_keys :
    (∀ cs : List CouponCode,
      (selectBestCodes cs).length ≤ 3
      ∧ (selectBestCodes cs).Pairwise (fun a b => rankLe a b = true))
    ∧ collectValid
      (some ⟨"A", "10% off", "coupons.com", true, 10⟩)
      (some ⟨"B", "20% off", "couponfollow.com", true, 20⟩) =
      [⟨"B", "20% off", "couponfollow.com", true, 20⟩,
       ⟨"A", "10% off", "coupons.com", true, 10⟩] := by
  refine ⟨fun cs => ⟨?_, ?_⟩, by decide⟩
  · simp [selectBestCodes]
  · exact ((pairwise_sortStable rankLe rankLe_total rankLe_trans
      (dedupValues cs)).sublist (List.take_sublist 3 _))

/-! ## Helper lemmas: the dedup pass -/

theorem firstVerFor_cons (c : CouponCode) (rest : List CouponCode)
    (k : String) :
    firstVerFor (c :: rest) k =
      if (c.code == k && c.verified) = true then some c
      else firstVerFor rest k := by
  simp only [firstVerFor, List.filter_cons]
  split
  · simp
  · rfl

theorem keptFor_cons_hit_ver (c : CouponCode) (rest : List CouponCode)
    (k : String) (hck : c.code = k) (hv : c.verified = true) :
    keptFor (c :: rest) k = some c := by
  simp [keptFor, firstVerFor_cons, hck, hv]

theorem keptFor_cons_hit_unver (c : CouponCode) (rest : List CouponCode)
    (k : String) (hck : c.code = k) (hv : c.verified = false) :
    keptFor (c :: rest) k = some ((firstVerFor rest k).getD c) := by
  unfold keptFor
  rw [firstVerFor_cons]
  rw [if_neg (by simp [hv])]
  cases hfv : firstVerFor rest k with
  | none => simp [List.filter_cons, hck]
  | some v => simp

theorem keptFor_cons_miss (c : CouponCode) (rest : List CouponCode)
    (k : String) (hck : c.code ≠ k) :
    keptFor (c :: rest) k = keptFor rest k := by
  simp [keptFor, firstVerFor_cons, hck, List.filter_cons]

theorem firstVerFor_cons_miss (c : CouponCode) (rest : List CouponCode)
    (k : String) (hck : c.code ≠ k) :
    firstVerFor (c :: rest) k = firstVerFor rest k := by
  simp [firstVerFor_cons, hck]

theorem firstVerFor_cons_unver (c : CouponCode) (rest : List CouponCode)
    (k : String) (hv : c.verified = false) :
    firstVerFor (c :: rest) k = firstVerFor rest k := by
  simp [firstVerFor_cons, hv]

theorem dedupStep_get_ne (m : List (String × CouponCode)) (c : CouponCode)
    (k : String) (h : c.code ≠ k) :
    mGet k (dedupStep m c) = mGet k m := by
  unfold dedupStep
  split
  · exact mGet_set_ne c.code k c m (fun he => h he.symm)
  · rfl

/-- What the dedup fold stores for key `k`: the entry already present wins
unless it is unverified and a verified candidate with that code arrives;
starting from nothing, the kept candidate is `keptFor`. -/
theorem dedup_fold_get (cs : List CouponCode) :
    ∀ (m : List (String × CouponCode)) (k : String),
      mGet k (cs.foldl dedupStep m) =
        (mGet k m).elim (keptFor cs k)
          (fun e => some (if e.verified then e
            else (firstVerFor cs k).getD e)) := by
  induction cs with
  | nil =>
    intro m k
    cases hm : mGet k m with
    | none => simp [keptFor, firstVerFor, hm]
    | some e => cases hv : e.verified <;> simp [hv, firstVerFor, hm]
  | cons c rest ih =>
    intro m k
    rw [List.foldl_cons, ih (dedupStep m c) k]
    by_cases hck : c.code = k
    · subst hck
      unfold dedupStep
      cases hm : mGet c.code m with
      | none =>
        rw [if_pos (by rfl), mGet_set_self]
        cases hv : c.verified with
        | true => simp [keptFor_cons_hit_ver c rest c.code rfl hv, hv]
        | false => simp [keptFor_cons_hit_unver c rest c.code rfl hv, hv]
      | some e =>
        rw [show ((some e).elim true
          (fun existing => c.verified && !existing.verified)) =
          (c.verified && !e.verified) from rfl]
        by_cases hce : (c.verified && !e.verified) = true
        · rw [if_pos hce, mGet_set_self]
          rcases (Bool.and_eq_true _ _).mp hce with ⟨hcv, hev⟩
          have hev' : e.verified = false := by
            simpa using hev
          simp [hcv, hev', firstVerFor_cons]
        · rw [if_neg hce]
          cases hv : e.verified with
          | false =>
            have hcv : c.verified = false := by
              cases hcc : c.verified
              · rfl
              · exact absurd (by simp [hcc, hv]) hce
            simp [hv, hm, firstVerFor_cons_unver c rest _ hcv]
          | true => simp [hv, hm]
    · rw [dedupStep_get_ne m c k hck, keptFor_cons_miss c rest k hck,
        firstVerFor_cons_miss c rest k hck]

/-- The dedup map keeps one entry per code, keyed by that code. -/
theorem dedup_invariant (cs : List CouponCode) :
    ∀ m : List (String × CouponCode),
      (m.map Prod.fst).Nodup → (∀ p ∈ m, p.2.code = p.1) →
      ((cs.foldl dedupStep m).map Prod.fst).Nodup
      ∧ ∀ p ∈ cs.foldl dedupStep m, p.2.code = p.1 := by
  induction cs with
  | nil => exact fun m h1 h2 => ⟨h1, h2⟩
  | cons c rest ih =>
    intro m h1 h2
    rw [List.foldl_cons]
    apply ih
    · unfold dedupStep
      split
      · cases hm : mGet c.code m with
        | none =>
          rw [mSet_fst_of_none c.code c m hm]
          have hnm := mGet_none_not_mem c.code m hm
          exact List.Nodup.append h1 (List.nodup_singleton _)
            (List.disjoint_singleton.mpr hnm)
        | some e =>
          rw [mSet_fst_of_some c.code c e m hm]
          exact h1
      · exact h1
    · intro p hp
      unfold dedupStep at hp
      split at hp
      · rcases mem_mSet c.code c m p hp with h | h
        · rw [h]
        · exact h2 p h
      · exact h2 p hp

theorem dedupValues_codes_nodup (cs : List CouponCode) :
    (dedupValues cs).Pairwise (fun a b => a.code ≠ b.code) := by
  obtain ⟨hn, hc⟩ := dedup_invariant cs [] (by simp) (by simp)
  have hpair : (dedupCodes cs).Pairwise (fun p q => p.1 ≠ q.1) :=
    (List.pairwise_map.mp hn)
  unfold dedupValues
  rw [List.pairwise_map]
  refine hpair.imp_of_mem ?_
  intro p q hp hq hne
  rw [hc p hp, hc q hq]
  exact hne

theorem selectBest_codes_nodup (cs : List CouponCode) :
    (selectBestCodes cs).Pairwise (fun a b => a.code ≠ b.code) := by
  have h1 := dedupValues_codes_nodup cs
  have h2 : (sortStable rankLe (dedupValues cs)).Pairwise
      (fun a b => a.code ≠ b.code) :=
    ((perm_sortStable rankLe (dedupValues cs)).pairwise_iff
      (fun h => h.symm)).mpr h1
  exact h2.sublist (List.take_sublist 3 _)

/-- C4: aggregation keeps at most one candidate per code; the kept one is
the first verified candidate with that code when any is verified, else the
first encountered; in particular an unverified and a verified `SAVE10`
collapse to the single verified one. -/
theorem C4_dedup_keeps_verified (cs : List CouponCode) (k : String) :
    mGet k (dedupCodes cs) = keptFor cs k
    ∧ (selectBestCodes cs).Pairwise (fun a b => a.code ≠ b.code)
    ∧ selectBestCodes
        [⟨"SAVE10", "", false, "A"⟩, ⟨"SAVE10", "", true, "B"⟩] =
      [⟨"SAVE10", "", true, "B"⟩] := by
  refine ⟨?_, selectBest_codes_nodup cs, by decide⟩
  have h := dedup_fold_get cs [] k
  simpa [dedupCodes, mGet] using h

/-! ## Helper lemmas: candidate creation sites -/

theorem rmnCapture_ne_nil (t : List Char) (cap : List Char)
    (h : rmnCapture t = some cap) : cap ≠ [] := by
  induction t with
  | nil => simp [rmnCapture] at h
  | cons c rest ih =>
    unfold rmnCapture at h
    dsimp only at h
    split at h
    · rename_i hcond
      injection h with h'
      subst h'
      have := ((Bool.and_eq_true _ _).mp hcond).2
      simpa using this
    · exact ih h

theorem extractSource_aux (name : String) :
    ∀ (es : List RawElem) (acc : List CouponCode),
      (∀ x ∈ acc, x.code ≠ "" ∧ isPotentialCouponCode x.code = true) →
      ∀ x ∈ es.foldl
        (fun acc e =>
          let code := elemCode e
          if code ≠ "" && isPotentialCouponCode code then
            acc ++ [⟨toUpperS code, e.description, e.verified, name⟩]
          else acc) acc,
      x.code ≠ "" ∧ isPotentialCouponCode x.code = true := by
  intro es
  induction es with
  | nil => exact fun acc hacc x hx => hacc x hx
  | cons e rest ih =>
    intro acc hacc x hx
    rw [List.foldl_cons] at hx
    refine ih _ ?_ x hx
    intro y hy
    dsimp only at hy
    by_cases hcond : (elemCode e ≠ "" && isPotentialCouponCode (elemCode e))
        = true
    · rw [if_pos hcond] at hy
      rcases List.mem_append.mp hy with h | h
      · exact hacc y h
      · have hy' : y = ⟨toUpperS (elemCode e), e.description, e.verified,
            name⟩ := by simpa using h
        subst hy'
        rcases (Bool.and_eq_true _ _).mp hcond with ⟨hne, hpot⟩
        refine ⟨?_, ?_⟩
        · exact toUpperS_ne_empty _ (by simpa using hne)
        · show isPotentialCouponCode (toUpperS (elemCode e)) = true
          rw [isPotential_toUpperS]
          exact hpot
    · rw [if_neg hcond] at hy
      exact hacc y hy

theorem extractSource_invariant (name : String) (elems : List RawElem)
    (c : CouponCode) (hc : c ∈ extractSource name elems) :
    c.code ≠ "" ∧ isPotentialCouponCode c.code = true :=
  extractSource_aux name elems [] (by simp) c hc

theorem extractRmn_aux :
    ∀ (es : List RmnElem) (acc : List CouponCode),
      (∀ x ∈ acc, x.code ≠ "" ∧ isPotentialCouponCode x.code = true) →
      ∀ x ∈ es.foldl
        (fun acc e =>
          (rmnCapture e.text.toList).elim acc (fun cap =>
            if isPotentialCouponCode (String.mk cap) then
              acc ++
                [⟨toUpperS (String.mk cap), e.description, true,
                  "retailmenot"⟩]
            else acc)) acc,
      x.code ≠ "" ∧ isPotentialCouponCode x.code = true := by
  intro es
  induction es with
  | nil => exact fun acc hacc x hx => hacc x hx
  | cons e rest ih =>
    intro acc hacc x hx
    rw [List.foldl_cons] at hx
    refine ih _ ?_ x hx
    intro y hy
    cases hcap : rmnCapture e.text.toList with
    | none =>
      rw [hcap] at hy
      exact hacc y hy
    | some cap =>
      rw [hcap] at hy
      dsimp only [Option.elim] at hy
      by_cases hpot : isPotentialCouponCode (String.mk cap) = true
      · rw [if_pos hpot] at hy
        rcases List.mem_append.mp hy with h | h
        · exact hacc y h
        · have hy' : y = ⟨toUpperS (String.mk cap), e.description, true,
              "retailmenot"⟩ := by simpa using h
          subst hy'
          have hcapne := rmnCapture_ne_nil e.text.toList cap hcap
          refine ⟨?_, ?_⟩
          · exact toUpperS_ne_empty _
              (fun he => hcapne (congrArg String.data he))
          · show isPotentialCouponCode (toUpperS (String.mk cap)) = true
            rw [isPotential_toUpperS]
            exact hpot
      · rw [if_neg hpot] at hy
        exact hacc y hy

theorem extractRmn_invariant (elems : List RmnElem) (c : CouponCode)
    (hc : c ∈ extractRmn elems) :
    c.code ≠ "" ∧ isPotentialCouponCode c.code = true :=
  extractRmn_aux elems [] (by simp) c hc

theorem sourcePart_invariant (name : String)
    (r : Except Unit (List RawElem)) (c : CouponCode)
    (hc : c ∈ sourcePart name r) :
    c.code ≠ "" ∧ isPotentialCouponCode c.code = true := by
  cases r with
  | error e => simp [sourcePart] at hc
  | ok elems => exact extractSource_invariant name elems c hc

theorem rmnPart_invariant (r : Except Unit (List RmnElem)) (c : CouponCode)
    (hc : c ∈ rmnPart r) :
    c.code ≠ "" ∧ isPotentialCouponCode c.code = true := by
  cases r with
  | error e => simp [rmnPart] at hc
  | ok elems => exact extractRmn_invariant elems c hc

/-- C9 counterexample: the puppeteer snapshot's fallback extractor accepts
`2024-2025` (its grammar allows hyphens), which violates the §4.3
code-shape grammar. -/
theorem C9_counterexample :
    fallbackCodes ["2024-2025"] = [⟨"2024-2025", "Fallback code"⟩]
    ∧ isPotentialCouponCode "2024-2025" = false :=
  ⟨by decide, by decide⟩

/-- C9 amended: every candidate created by the cheerio scraper (the three
sources and the RetailMeNot pass) has a non-empty code passing
`isPotentialCouponCode`; the fallback extractor guarantees only a
non-empty match of its own `[A-Z0-9-]{4,15}` grammar, which is weaker than
the §4.3 grammar. -/
theorem C9_amended_candidate_shapes :
    (∀ (o : ScrapeOutcome) (c : CouponCode), c ∈ scrapeCouponCodes o →
      c.code ≠ "" ∧ isPotentialCouponCode c.code = true)
    ∧ (∀ (texts : List String) (d : CouponData), d ∈ fallbackCodes texts →
      d.code ≠ "" ∧ fallbackShape d.code.toList = true) := by
  constructor
  · intro o c hc
    unfold scrapeCouponCodes at hc
    rcases List.mem_append.mp hc with h | h
    · rcases List.mem_append.mp h with h' | h'
      · rcases List.mem_append.mp h' with h'' | h''
        · exact sourcePart_invariant _ _ c h''
        · exact sourcePart_invariant _ _ c h''
      · exact sourcePart_invariant _ _ c h'
    · exact rmnPart_invariant _ c h
  · intro texts d hd
    unfold fallbackCodes at hd
    rcases List.mem_map.mp hd with ⟨t, ht, he⟩
    rcases List.mem_filter.mp ht with ⟨_, hcond⟩
    rcases (Bool.and_eq_true _ _).mp hcond with ⟨hne, hshape⟩
    rw [← he]
    exact ⟨by simpa using hne, hshape⟩

theorem C9_witness :
    (⟨"SAVE15", "", false, "couponcabin"⟩ : CouponCode) ∈
      scrapeCouponCodes
        ⟨.ok [⟨some "SAVE15", "", "", false⟩], .error (), .error (),
          .error ()⟩
    ∧ (("SAVE15" : String) ≠ ""
      ∧ isPotentialCouponCode "SAVE15" = true)
    ∧ (⟨"2024-2025", "Fallback code"⟩ : CouponData) ∈
      fallbackCodes ["2024-2025"]
    ∧ (("2024-2025" : String) ≠ ""
      ∧ fallbackShape ("2024-2025" : String).toList = true) :=
  ⟨by decide,
    C9_amended_candidate_shapes.1
      ⟨.ok [⟨some "SAVE15", "", "", false⟩], .error (), .error (), .error ()⟩
      ⟨"SAVE15", "", false, "couponcabin"⟩ (by decide),
    by decide,
    C9_amended_candidate_shapes.2 ["2024-2025"]
      ⟨"2024-2025", "Fallback code"⟩ (by decide)⟩
